import Mathlib

/-!
Verification development for the `dance` modal-editing command layer
(`crates/dance/dance.rs`): row-range normalization, line selection
expansion, the join engine, clipboard-aware paste, and the mode
controller, shallowly embedded over a line-based buffer model.
-/

namespace DanceSpec

/-- A buffer line: its characters, with no line-break characters inside. -/
abbrev Line := List Char

/-- A buffer snapshot: the list of its lines. -/
abbrev Buffer := List Line

/-- A half-open row interval `[start, end)`, as `(start, end)`. -/
abbrev RowRange := Nat × Nat

/-- A (row, column) position in a buffer snapshot. -/
structure Point where
  row : Nat
  column : Nat
deriving DecidableEq, Repr

/-- A selection: two endpoints plus the `reversed` flag saying the caret is
at the start.  The source's `end` field is called `stop` here. -/
structure Selection where
  start : Point
  stop : Point
  reversed : Bool
deriving DecidableEq, Repr

/-! ### Row-range normalizer

Embedding of the accumulator loop in `join_lines` (dance.rs lines 218-235):
for each incoming range, if `start <= last.end` the last accumulated
range's end is overwritten with the incoming end, otherwise the range is
appended. -/

/-- Loop of the normalizer, carrying the last accumulated range.  Mirrors
`if start <= last_row_range.end { last_row_range.end = end } else { push }`. -/
def mergeRowRanges : RowRange → List RowRange → List RowRange
  | lastR, [] => [lastR]
  | lastR, r :: rs =>
    if r.1 ≤ lastR.2 then mergeRowRanges (lastR.1, r.2) rs
    else lastR :: mergeRowRanges r rs

/-- The row-range normalizer: left-to-right pass merging mergeable ranges. -/
def normalizeRowRanges : List RowRange → List RowRange
  | [] => []
  | r :: rs => mergeRowRanges r rs

/-- Row `x` lies inside one of the ranges of `l`. -/
def coversRow (l : List RowRange) (x : Nat) : Prop := ∃ r ∈ l, r.1 ≤ x ∧ x < r.2

instance (l : List RowRange) (x : Nat) : Decidable (coversRow l x) := by
  unfold coversRow; infer_instance

theorem coversRow_cons {r : RowRange} {l : List RowRange} {x : Nat} :
    coversRow (r :: l) x ↔ (r.1 ≤ x ∧ x < r.2) ∨ coversRow l x := by
  simp [coversRow]

theorem coversRow_nil {x : Nat} : ¬ coversRow [] x := by simp [coversRow]

/-- Main invariant of the normalizer loop, for inputs whose starts and ends
are both non-decreasing: the output is nonempty, keeps the first start,
consists of valid ranges, is a strictly separated chain, and covers exactly
the union of the carried range and the remaining input. -/
theorem mergeRowRanges_spec (rs : List RowRange) : ∀ lastR : RowRange,
    lastR.1 ≤ lastR.2 → (∀ r ∈ rs, r.1 ≤ r.2) →
    List.Chain' (fun a b : RowRange => a.1 ≤ b.1) (lastR :: rs) →
    List.Chain' (fun a b : RowRange => a.2 ≤ b.2) (lastR :: rs) →
    (mergeRowRanges lastR rs).head?.map Prod.fst = some lastR.1 ∧
    (∀ r ∈ mergeRowRanges lastR rs, r.1 ≤ r.2) ∧
    List.Chain' (fun a b : RowRange => a.2 < b.1) (mergeRowRanges lastR rs) ∧
    (∀ x, coversRow (mergeRowRanges lastR rs) x ↔
      ((lastR.1 ≤ x ∧ x < lastR.2) ∨ coversRow rs x)) := by
  induction rs with
  | nil =>
    intro lastR hv _ _ _
    refine ⟨rfl, ?_, ?_, ?_⟩
    · simpa [mergeRowRanges] using hv
    · simp [mergeRowRanges]
    · intro x; simp [mergeRowRanges, coversRow_cons, coversRow_nil]
  | cons r rs ih =>
    intro lastR hv hvs hstarts hends
    have hsr : lastR.1 ≤ r.1 := (List.chain'_cons.mp hstarts).1
    have her : lastR.2 ≤ r.2 := (List.chain'_cons.mp hends).1
    have hrv : r.1 ≤ r.2 := hvs r (by simp)
    by_cases hm : r.1 ≤ lastR.2
    · -- merge branch: the carried range becomes (lastR.1, r.2)
      have hstep : mergeRowRanges lastR (r :: rs) = mergeRowRanges (lastR.1, r.2) rs := by
        simp [mergeRowRanges, hm]
      have hstarts' : List.Chain' (fun a b : RowRange => a.1 ≤ b.1)
          (((lastR.1, r.2) : RowRange) :: rs) := by
        rcases rs with _ | ⟨s, rs'⟩
        · simp
        · refine List.chain'_cons.mpr ⟨?_, ((List.chain'_cons.mp hstarts).2).tail⟩
          exact le_trans hsr ((List.chain'_cons.mp (List.chain'_cons.mp hstarts).2).1)
      have hends' : List.Chain' (fun a b : RowRange => a.2 ≤ b.2)
          (((lastR.1, r.2) : RowRange) :: rs) := by
        rcases rs with _ | ⟨s, rs'⟩
        · simp
        · refine List.chain'_cons.mpr ⟨?_, ((List.chain'_cons.mp hends).2).tail⟩
          exact (List.chain'_cons.mp (List.chain'_cons.mp hends).2).1
      obtain ⟨h1, h2, h3, h4⟩ := ih (lastR.1, r.2) (le_trans hsr hrv)
        (fun a ha => hvs a (by simp [ha])) hstarts' hends'
      rw [hstep]
      refine ⟨h1, h2, h3, ?_⟩
      intro x
      rw [h4 x, coversRow_cons]
      constructor
      · rintro (⟨ha, hb⟩ | h)
        · by_cases hx : x < lastR.2
          · exact Or.inl ⟨ha, hx⟩
          · exact Or.inr (Or.inl ⟨by omega, hb⟩)
        · exact Or.inr (Or.inr h)
      · rintro (⟨ha, hb⟩ | ⟨ha, hb⟩ | h)
        · exact Or.inl ⟨ha, by omega⟩
        · exact Or.inl ⟨by omega, hb⟩
        · exact Or.inr h
    · -- append branch: lastR is emitted, r becomes the carried range
      have hstep : mergeRowRanges lastR (r :: rs) = lastR :: mergeRowRanges r rs := by
        simp [mergeRowRanges, hm]
      obtain ⟨h1, h2, h3, h4⟩ := ih r hrv (fun a ha => hvs a (by simp [ha]))
        ((List.chain'_cons.mp hstarts).2) ((List.chain'_cons.mp hends).2)
      rw [hstep]
      refine ⟨rfl, ?_, ?_, ?_⟩
      · intro a ha
        rcases List.mem_cons.mp ha with rfl | ha
        · exact hv
        · exact h2 a ha
      · rcases hne : mergeRowRanges r rs with _ | ⟨hd, tl⟩
        · simp
        · refine List.chain'_cons.mpr ⟨?_, by rw [← hne]; exact h3⟩
          have : r.1 = hd.1 := by
            have := h1; rw [hne] at this; simpa using this.symm
          omega
      · intro x
        rw [coversRow_cons, h4 x, coversRow_cons]

/-- Normalizer correctness under the strengthened precondition that both
starts and ends are non-decreasing. -/
theorem normalizeRowRanges_spec (l : List RowRange)
    (hv : ∀ r ∈ l, r.1 ≤ r.2)
    (hs : List.Chain' (fun a b : RowRange => a.1 ≤ b.1) l)
    (he : List.Chain' (fun a b : RowRange => a.2 ≤ b.2) l) :
    (∀ r ∈ normalizeRowRanges l, r.1 ≤ r.2) ∧
    List.Chain' (fun a b : RowRange => a.2 < b.1) (normalizeRowRanges l) ∧
    (∀ x, coversRow (normalizeRowRanges l) x ↔ coversRow l x) := by
  rcases l with _ | ⟨r, rs⟩
  · exact ⟨by simp [normalizeRowRanges], by simp [normalizeRowRanges],
      fun x => by simp [normalizeRowRanges]⟩
  · obtain ⟨_, h2, h3, h4⟩ := mergeRowRanges_spec rs r (hv r (by simp))
      (fun a ha => hv a (by simp [ha])) hs he
    exact ⟨h2, h3, fun x => by rw [normalizeRowRanges, h4 x, coversRow_cons]⟩

/-! ### Buffer snapshot queries -/

/-- Length of row `r` of the snapshot; a row past the end has length 0.
Embeds `snapshot.line_len(row)` of the host, whose point arithmetic clips
to the buffer. -/
def lineLen (buf : Buffer) (r : Nat) : Nat := (buf.getD r []).length

/-- Number of leading characters of the line satisfying `p`. -/
def countLeading (p : Char → Bool) : Line → Nat
  | [] => 0
  | c :: cs => if p c then countLeading p cs + 1 else 0

/-- Space and tab are the indentation characters. -/
def isIndentChar (c : Char) : Bool := c = ' ' || c = '\t'

/-- Embeds `snapshot.indent_size_for_line(row).len`: the number of leading
space/tab characters of the row (0 for a row past the end). -/
def indentLen (buf : Buffer) (r : Nat) : Nat := countLeading isIndentChar (buf.getD r [])

/-- Modelled from the spec: the host snapshot's maximum point (end of the
last line); the spec's expander clamps ends to it. -/
def maxPoint (buf : Buffer) : Point := ⟨buf.length - 1, lineLen buf (buf.length - 1)⟩

/-- Lexicographic order on points, as used by the host's `Point` `Ord`. -/
def pointLe (p q : Point) : Bool := p.row < q.row || (p.row == q.row && p.column ≤ q.column)

/-- Lexicographic minimum of two points. -/
def pointMin (p q : Point) : Point := if pointLe p q then p else q

/-- Modelled from the spec: the host clips a point to the buffer — a row
past the end becomes the maximum point, a column past the line end becomes
the line end. -/
def clipPoint (buf : Buffer) (p : Point) : Point :=
  if p.row < buf.length then ⟨p.row, min p.column (lineLen buf p.row)⟩
  else ⟨buf.length - 1, lineLen buf (buf.length - 1)⟩

/-- Modelled from the spec: host edit application — replace the clipped
span `[p₁, p₂]` (`p₁ ≤ p₂`) with replacement text `repl` containing no
line break. -/
def editSpan (buf : Buffer) (p₁ p₂ : Point) (repl : Line) : Buffer :=
  let q₁ := clipPoint buf p₁
  let q₂ := clipPoint buf p₂
  buf.take q₁.row ++
    [(buf.getD q₁.row []).take q₁.column ++ repl ++ (buf.getD q₂.row []).drop q₂.column] ++
    buf.drop (q₂.row + 1)

theorem countLeading_le (p : Char → Bool) (l : Line) : countLeading p l ≤ l.length := by
  induction l with
  | nil => simp [countLeading]
  | cons c cs ih =>
    by_cases hc : p c
    · simp [countLeading, hc]; omega
    · simp [countLeading, hc]

theorem indentLen_le_lineLen (buf : Buffer) (r : Nat) : indentLen buf r ≤ lineLen buf r :=
  countLeading_le _ _

theorem countLeading_eq_length_iff (p : Char → Bool) (l : Line) :
    countLeading p l = l.length ↔ l.all p := by
  induction l with
  | nil => simp [countLeading]
  | cons c cs ih =>
    by_cases hc : p c
    · simpa [countLeading, hc] using ih
    · simp [countLeading, hc]

/-! ### Join engine

Embedding of `join_lines` (dance.rs lines 205-283): derive one row range
per selection, normalize, then bottom-up over ranges and rows record a
cursor anchor range and merge each row with its successor. -/

/-- Row range of one selection (dance.rs lines 220-226): a single-row
selection joins with the next row, a multi-row selection joins up to, but
not including, its last row. -/
def rowRangeOf (s : Selection) : RowRange :=
  (s.start.row, if s.start.row = s.stop.row then s.start.row + 1 else s.stop.row)

/-- The replacement text chosen for the join at `row` (dance.rs lines
263-267): one space when the next line has content beyond its indent,
nothing when it is blank or whitespace-only. -/
def joinSep (snap : Buffer) (row : Nat) : Line :=
  if indentLen snap (row + 1) < lineLen snap (row + 1) then [' '] else []

/-- The edit span issued for the join at `row` (dance.rs lines 257-261):
from the end of the row's text to the first non-indent column of the next
row, both measured on the frozen snapshot. -/
def joinEditSpan (snap : Buffer) (row : Nat) : Point × Point :=
  (⟨row, lineLen snap row⟩, ⟨row + 1, indentLen snap (row + 1)⟩)

/-- One join edit: the span is computed from the frozen snapshot `snap`,
the edit is applied to the live buffer `buf` (dance.rs lines 269-271). -/
def joinEdit (snap : Buffer) (buf : Buffer) (row : Nat) : Buffer :=
  editSpan buf (joinEditSpan snap row).1 (joinEditSpan snap row).2 (joinSep snap row)

/-- The cursor anchor range recorded for the join at `row` (dance.rs lines
251-253): from the end of the row's text to column 0 of the next row, both
anchored in the frozen snapshot. -/
def cursorRangeForRow (snap : Buffer) (row : Nat) : Point × Point :=
  (⟨row, lineLen snap row⟩, ⟨row + 1, 0⟩)

/-- Spec-words variant of `cursorRangeForRow`, for refinement comparison:
the spec says the range ends at the first non-indent column of the next
row. -/
def cursorRangeSpecWords (snap : Buffer) (row : Nat) : Point × Point :=
  (⟨row, lineLen snap row⟩, ⟨row + 1, indentLen snap (row + 1)⟩)

/-- The rows `start, start+1, ..., end-1` of a row range, in ascending
order (`iter_rows`). -/
def rowsOfRange (rr : RowRange) : List Nat := List.range' rr.1 (rr.2 - rr.1)

/-- The order in which `join_lines` visits rows: ranges in reverse order
(`.rev()`), and within each range rows in reverse order
(`iter_rows().rev()`). -/
def visitOrder : List RowRange → List Nat
  | [] => []
  | rr :: rest => visitOrder rest ++ (rowsOfRange rr).reverse

/-- The transaction loop of `join_lines`: for each visited row, push the
cursor anchor range (computed from the frozen snapshot) and apply the join
edit to the live buffer.  Returns the final buffer and the pushed cursor
ranges in push order. -/
def joinLinesLoop (snap : Buffer) : List Nat → Buffer → Buffer × List (Point × Point)
  | [], buf => (buf, [])
  | r :: rs, buf =>
    let res := joinLinesLoop snap rs (joinEdit snap buf r)
    (res.1, cursorRangeForRow snap r :: res.2)

/-- The whole `join_lines` command on a buffer and its selections: derive
and normalize row ranges, run the transaction loop bottom-up, and reverse
the collected cursor ranges so they end up in ascending buffer order. -/
def joinLines (buf : Buffer) (sels : List Selection) : Buffer × List (Point × Point) :=
  let ranges := normalizeRowRanges (sels.map rowRangeOf)
  let res := joinLinesLoop buf (visitOrder ranges) buf
  (res.1, res.2.reverse)

/-- The buffer produced by a sequence of join edits, all of whose spans are
measured on the one frozen snapshot. -/
def applyJoinEdits (snap : Buffer) (rows : List Nat) (buf : Buffer) : Buffer :=
  rows.foldl (joinEdit snap) buf

/-! ### Claim C1 -/

/-- C1 counterexample: on the input `[(0,10), (1,2)]`, whose starts `0, 1`
are non-decreasing, the normalizer overwrites the accumulated end with the
incoming end (not the maximum), producing `[(0,2)]`: row 5 is covered by
the inputs but not by the output, so the output does not cover the union
of the inputs. -/
theorem claim1_counterexample :
    List.Chain' (fun a b : RowRange => a.1 ≤ b.1) [((0 : Nat), (10 : Nat)), (1, 2)] ∧
    normalizeRowRanges [((0 : Nat), (10 : Nat)), (1, 2)] = [(0, 2)] ∧
    coversRow [((0 : Nat), (10 : Nat)), (1, 2)] 5 ∧
    ¬ coversRow (normalizeRowRanges [((0 : Nat), (10 : Nat)), (1, 2)]) 5 := by
  refine ⟨by simp [List.chain'_cons], by decide, ?_, by decide⟩
  exact ⟨(0, 10), by simp [coversRow], by omega, by omega⟩

/-- C1 (amended): for every input sequence of valid row ranges whose starts
AND ends are both non-decreasing, the normalizer merges a mergeable
incoming range (incoming.start ≤ last.end) by setting the last accumulated
end to the incoming end — which under this precondition equals
max(last.end, incoming.end) — so the output ranges are pairwise disjoint,
sorted ascending, and cover exactly the union of the inputs. -/
theorem claim1_amended (l : List RowRange)
    (hv : ∀ r ∈ l, r.1 ≤ r.2)
    (hs : List.Chain' (fun a b : RowRange => a.1 ≤ b.1) l)
    (he : List.Chain' (fun a b : RowRange => a.2 ≤ b.2) l) :
    (∀ (lastR r : RowRange) (rs : List RowRange), r.1 ≤ lastR.2 → lastR.2 ≤ r.2 →
      mergeRowRanges lastR (r :: rs) = mergeRowRanges (lastR.1, max lastR.2 r.2) rs) ∧
    (∀ r ∈ normalizeRowRanges l, r.1 ≤ r.2) ∧
    List.Chain' (fun a b : RowRange => a.2 < b.1) (normalizeRowRanges l) ∧
    (∀ x, coversRow (normalizeRowRanges l) x ↔ coversRow l x) := by
  obtain ⟨h1, h2, h3⟩ := normalizeRowRanges_spec l hv hs he
  refine ⟨?_, h1, h2, h3⟩
  intro lastR r rs hm hle
  simp [mergeRowRanges, hm, Nat.max_eq_right hle]

/-- C1 witness: the amended theorem applied at the concrete input
`[(0,2), (1,3), (5,6)]`. -/
theorem claim1_witness :
    (∀ (lastR r : RowRange) (rs : List RowRange), r.1 ≤ lastR.2 → lastR.2 ≤ r.2 →
      mergeRowRanges lastR (r :: rs) = mergeRowRanges (lastR.1, max lastR.2 r.2) rs) ∧
    (∀ r ∈ normalizeRowRanges [((0 : Nat), (2 : Nat)), (1, 3), (5, 6)], r.1 ≤ r.2) ∧
    List.Chain' (fun a b : RowRange => a.2 < b.1)
      (normalizeRowRanges [((0 : Nat), (2 : Nat)), (1, 3), (5, 6)]) ∧
    (∀ x, coversRow (normalizeRowRanges [((0 : Nat), (2 : Nat)), (1, 3), (5, 6)]) x ↔
      coversRow [((0 : Nat), (2 : Nat)), (1, 3), (5, 6)] x) :=
  claim1_amended [((0 : Nat), (2 : Nat)), (1, 3), (5, 6)]
    (by decide) (by simp [List.chain'_cons]) (by simp [List.chain'_cons])

/-! ### Join-edit characterization -/

/-- The join edit at a row whose successor exists: the two lines are merged
into one, the next line loses its leading indentation, and the separator is
the one chosen by `joinSep`. -/
theorem joinEdit_eq_of_next_row (buf : Buffer) (r : Nat) (h : r + 1 < buf.length) :
    joinEdit buf buf r =
      buf.take r ++
        [buf.getD r [] ++ joinSep buf r ++
          (buf.getD (r + 1) []).drop (indentLen buf (r + 1))] ++
      buf.drop (r + 2) := by
  have h1 : r < buf.length := by omega
  have hle : indentLen buf (r + 1) ≤ lineLen buf (r + 1) := indentLen_le_lineLen buf (r + 1)
  simp only [joinEdit, joinEditSpan, editSpan, clipPoint, h1, h, if_pos, min_self,
    Nat.min_eq_left hle]
  simp [lineLen]

/-- The separator is a single space exactly when the next line has content
beyond its indentation, and empty exactly when the next line is blank or
whitespace-only. -/
theorem joinSep_characterization (buf : Buffer) (r : Nat) :
    (joinSep buf r = [' '] ↔ ¬ (buf.getD (r + 1) []).all isIndentChar) ∧
    (joinSep buf r = [] ↔ (buf.getD (r + 1) []).all isIndentChar) := by
  have hle : indentLen buf (r + 1) ≤ lineLen buf (r + 1) := indentLen_le_lineLen buf (r + 1)
  have hiff := countLeading_eq_length_iff isIndentChar (buf.getD (r + 1) [])
  by_cases hlt : indentLen buf (r + 1) < lineLen buf (r + 1)
  · have hne : ¬ (buf.getD (r + 1) []).all isIndentChar = true := by
      rw [← hiff]
      simp only [indentLen, lineLen] at hlt
      omega
    refine ⟨⟨fun _ => hne, fun _ => by simp [joinSep, hlt]⟩, ?_, ?_⟩
    · intro hcontr
      simp [joinSep, hlt] at hcontr
    · intro hcontr
      exact absurd hcontr hne
  · have hall : (buf.getD (r + 1) []).all isIndentChar = true := by
      rw [← hiff]
      simp only [indentLen, lineLen] at hle hlt
      omega
    refine ⟨⟨?_, ?_⟩, fun _ => hall, fun _ => by simp [joinSep, hlt]⟩
    · intro hcontr
      simp [joinSep, hlt] at hcontr
    · intro hcontr
      exact absurd hall hcontr

/-! ### Claim C4 -/

/-- C4: for a row joined with an existing successor, join-lines replaces
the span from end-of-current-line through the next line's first non-indent
column: the result keeps all other lines, merges the two lines with the
next line's leading indentation removed, and the inserted separator is one
space exactly when the next line has non-indent content and empty exactly
when the next line is blank or whitespace-only. -/
theorem claim4_join_whitespace_rule (buf : Buffer) (r : Nat) (h : r + 1 < buf.length) :
    joinEdit buf buf r =
      buf.take r ++
        [buf.getD r [] ++ joinSep buf r ++
          (buf.getD (r + 1) []).drop (indentLen buf (r + 1))] ++
      buf.drop (r + 2) ∧
    (joinSep buf r = [' '] ↔ ¬ (buf.getD (r + 1) []).all isIndentChar) ∧
    (joinSep buf r = [] ↔ (buf.getD (r + 1) []).all isIndentChar) :=
  ⟨joinEdit_eq_of_next_row buf r h, joinSep_characterization buf r⟩

/-- C4 witness: joining `"ab"` with `"  cd"` inserts one space and strips
the indent; joining `"ab"` with `"  "` (whitespace-only) inserts nothing. -/
theorem claim4_witness :
    (joinEdit [['a', 'b'], [' ', ' ', 'c', 'd'], ['e']] [['a', 'b'], [' ', ' ', 'c', 'd'], ['e']] 0 =
      [['a', 'b', ' ', 'c', 'd'], ['e']] ∧
     joinEdit [['a', 'b'], [' ', ' ']] [['a', 'b'], [' ', ' ']] 0 = [['a', 'b']]) ∧
    (0 : Nat) + 1 < 3 := by
  refine ⟨⟨?_, ?_⟩, by omega⟩
  · have h := (claim4_join_whitespace_rule [['a', 'b'], [' ', ' ', 'c', 'd'], ['e']] 0
      (by simp)).1
    rw [h]; rfl
  · have h := (claim4_join_whitespace_rule [['a', 'b'], [' ', ' ']] 0 (by simp)).1
    rw [h]; rfl

/-! ### Claim C9 -/

/-- C9: a single-row selection on the last row yields the row range
`[last_row, last_row+1)`; the snapshot queries for row `last_row+1` (one
past the end) are total and return 0 for both line length and indent size;
the issued edit's endpoint lies on that nonexistent row; and applying the
join edit there is total and leaves the buffer unchanged. -/
theorem claim9_last_row_join_total (buf : Buffer) (hne : buf ≠ []) (c c' : Nat) (rev : Bool) :
    rowRangeOf ⟨⟨buf.length - 1, c⟩, ⟨buf.length - 1, c'⟩, rev⟩ =
      (buf.length - 1, buf.length) ∧
    lineLen buf buf.length = 0 ∧
    indentLen buf buf.length = 0 ∧
    (joinEditSpan buf (buf.length - 1)).2.row = buf.length ∧
    joinEdit buf buf (buf.length - 1) = buf := by
  have hlen : 0 < buf.length := List.length_pos.mpr hne
  have hrow : buf.length - 1 + 1 = buf.length := by omega
  have hgetD : buf.getD buf.length [] = [] := by
    simp [List.getD_eq_getElem?_getD]
  have hlin : lineLen buf buf.length = 0 := by simp [lineLen, hgetD]
  have hind : indentLen buf buf.length = 0 := by simp [indentLen, hgetD, countLeading]
  refine ⟨by simp [rowRangeOf, hrow], hlin, hind, by simp [joinEditSpan, hrow], ?_⟩
  have hsep : joinSep buf (buf.length - 1) = [] := by
    simp [joinSep, hrow, hlin, hind]
  have hclip2 : clipPoint buf ⟨buf.length - 1 + 1, indentLen buf (buf.length - 1 + 1)⟩ =
      ⟨buf.length - 1, lineLen buf (buf.length - 1)⟩ := by
    simp [clipPoint, hrow]
  have hclip1 : clipPoint buf ⟨buf.length - 1, lineLen buf (buf.length - 1)⟩ =
      ⟨buf.length - 1, lineLen buf (buf.length - 1)⟩ := by
    simp [clipPoint, Nat.sub_lt hlen Nat.one_pos]
  simp only [joinEdit, joinEditSpan, editSpan, hclip1, hclip2, hsep]
  rw [show (buf.getD (buf.length - 1) []).take (lineLen buf (buf.length - 1)) ++ [] ++
        (buf.getD (buf.length - 1) []).drop (lineLen buf (buf.length - 1)) =
      buf.getD (buf.length - 1) [] by simp [lineLen]]
  rw [show buf.length - 1 + 1 = buf.length from hrow]
  rw [List.drop_length]
  have : buf.take (buf.length - 1) ++ [buf.getD (buf.length - 1) []] = buf.take buf.length := by
    have h2 : buf.length - 1 < buf.length := Nat.sub_lt hlen Nat.one_pos
    rw [List.getD_eq_getElem buf [] h2]
    conv_rhs => rw [← hrow]
    rw [← List.take_concat_get buf (buf.length - 1) h2]
    simp [List.concat_eq_append]
  rw [this, List.take_length]
  simp

/-- C9 witness: the theorem applied to the concrete two-line buffer
`["ab", "cd"]` with a caret selection on its last row. -/
theorem claim9_witness :
    rowRangeOf ⟨⟨1, 0⟩, ⟨1, 0⟩, false⟩ = (1, 2) ∧
    lineLen [['a', 'b'], ['c', 'd']] 2 = 0 ∧
    indentLen [['a', 'b'], ['c', 'd']] 2 = 0 ∧
    (joinEditSpan [['a', 'b'], ['c', 'd']] 1).2.row = 2 ∧
    joinEdit [['a', 'b'], ['c', 'd']] [['a', 'b'], ['c', 'd']] 1 = [['a', 'b'], ['c', 'd']] :=
  claim9_last_row_join_total [['a', 'b'], ['c', 'd']] (by simp) 0 0 false

/-! ### Cursor positions and visit order -/

theorem joinLinesLoop_cursors (snap : Buffer) (rows : List Nat) : ∀ buf,
    (joinLinesLoop snap rows buf).2 = rows.map (cursorRangeForRow snap) := by
  induction rows with
  | nil => intro buf; rfl
  | cons r rs ih => intro buf; simp [joinLinesLoop, ih]

theorem joinLinesLoop_buffer (snap : Buffer) (rows : List Nat) : ∀ buf,
    (joinLinesLoop snap rows buf).1 = applyJoinEdits snap rows buf := by
  induction rows with
  | nil => intro buf; rfl
  | cons r rs ih => intro buf; simp [joinLinesLoop, applyJoinEdits, ih]

theorem mem_rowsOfRange {rr : RowRange} {x : Nat} (h : x ∈ rowsOfRange rr) :
    rr.1 ≤ x ∧ x < rr.2 := by
  rw [rowsOfRange, List.mem_range'_1] at h
  omega

theorem mem_visitOrder {l : List RowRange} {x : Nat} (h : x ∈ visitOrder l) :
    ∃ rr ∈ l, rr.1 ≤ x ∧ x < rr.2 := by
  induction l with
  | nil => simp [visitOrder] at h
  | cons rr rest ih =>
    rw [visitOrder, List.mem_append, List.mem_reverse] at h
    rcases h with h | h
    · obtain ⟨s, hs, hx⟩ := ih h
      exact ⟨s, by simp [hs], hx⟩
    · exact ⟨rr, by simp, mem_rowsOfRange h⟩

/-- A chain of strictly separated valid ranges is pairwise separated. -/
theorem pairwise_of_chain_sep : ∀ {l : List RowRange}, (∀ r ∈ l, r.1 ≤ r.2) →
    List.Chain' (fun a b : RowRange => a.2 < b.1) l →
    List.Pairwise (fun a b : RowRange => a.2 < b.1) l := by
  intro l
  induction l with
  | nil => simp
  | cons a l ih =>
    intro hv hc
    rcases l with _ | ⟨b, l'⟩
    · simp
    · have hab : a.2 < b.1 := (List.chain'_cons.mp hc).1
      have htail := ih (fun r hr => hv r (by simp [hr])) (List.chain'_cons.mp hc).2
      refine List.pairwise_cons.mpr ⟨?_, htail⟩
      intro c hc'
      rcases List.mem_cons.mp hc' with rfl | hc''
      · exact hab
      · have h1 := (List.pairwise_cons.mp htail).1 c hc''
        have h2 : b.1 ≤ b.2 := hv b (by simp)
        omega

/-- Bottom-up visiting: for pairwise separated valid ranges, the visit
order is strictly descending. -/
theorem visitOrder_pairwise_gt : ∀ {l : List RowRange}, (∀ r ∈ l, r.1 ≤ r.2) →
    List.Pairwise (fun a b : RowRange => a.2 < b.1) l →
    List.Pairwise (fun a b : Nat => b < a) (visitOrder l) := by
  intro l
  induction l with
  | nil => intro _ _; simp [visitOrder]
  | cons rr rest ih =>
    intro hv hp
    rw [visitOrder, List.pairwise_append]
    refine ⟨ih (fun r hr => hv r (by simp [hr])) (List.pairwise_cons.mp hp).2, ?_, ?_⟩
    · rw [List.pairwise_reverse]
      exact List.pairwise_lt_range' rr.1 (rr.2 - rr.1)
    · intro a ha b hb
      obtain ⟨s, hs, h1, h2⟩ := mem_visitOrder ha
      have hbmem := mem_rowsOfRange (List.mem_reverse.mp hb)
      have hsep : rr.2 < s.1 := (List.pairwise_cons.mp hp).1 s hs
      omega

/-! ### Prefix stability of bottom-up edits -/

theorem joinEdit_take_eq (snap buf : Buffer) (r k : Nat) (hk : k ≤ r) (hr : r < buf.length) :
    (joinEdit snap buf r).take k = buf.take k := by
  simp only [joinEdit, joinEditSpan, editSpan, clipPoint, hr, if_pos]
  rw [List.take_append_of_le_length, List.take_append_of_le_length, List.take_take,
    Nat.min_eq_left hk]
  · simp
    omega
  · simp
    omega

theorem joinEdit_length_ge (snap buf : Buffer) (r : Nat) (hr : r < buf.length) :
    buf.length - 1 ≤ (joinEdit snap buf r).length := by
  simp only [joinEdit, joinEditSpan, editSpan, clipPoint, hr, if_pos]
  by_cases h2 : r + 1 < buf.length
  · rw [if_pos h2]
    simp
    omega
  · rw [if_neg h2]
    simp
    omega

/-- While visiting rows in strictly descending order, the buffer prefix up
to and including the row about to be edited is still exactly the prefix of
the original buffer: no already-applied edit has shifted it. -/
theorem applyJoinEdits_prefix_stable (snap : Buffer) : ∀ (rows : List Nat) (buf : Buffer),
    List.Pairwise (fun a b : Nat => b < a) rows → (∀ r ∈ rows, r < buf.length) →
    ∀ i (h : i < rows.length),
      (applyJoinEdits snap (rows.take i) buf).take (rows.get ⟨i, h⟩ + 1) =
        buf.take (rows.get ⟨i, h⟩ + 1) := by
  intro rows
  induction rows with
  | nil =>
    intro buf _ _ i h
    simp at h
  | cons r0 rs ih =>
    intro buf hp hb i h
    cases i with
    | zero => simp [applyJoinEdits]
    | succ j =>
      have hr0 : r0 < buf.length := hb r0 (by simp)
      have hgt : ∀ r ∈ rs, r < r0 := (List.pairwise_cons.mp hp).1
      have hb' : ∀ r ∈ rs, r < (joinEdit snap buf r0).length := by
        intro r hr
        have h1 := joinEdit_length_ge snap buf r0 hr0
        have h2 := hgt r hr
        omega
      have hj : j < rs.length := by simpa using h
      have hrec := ih (joinEdit snap buf r0) (List.pairwise_cons.mp hp).2 hb' j hj
      have hget : (r0 :: rs).get ⟨j + 1, h⟩ = rs.get ⟨j, hj⟩ := List.get_cons_succ
      rw [hget, List.take_succ_cons]
      show (applyJoinEdits snap (r0 :: rs.take j) buf).take (rs.get ⟨j, hj⟩ + 1) = _
      have hstep : applyJoinEdits snap (r0 :: rs.take j) buf =
          applyJoinEdits snap (rs.take j) (joinEdit snap buf r0) := rfl
      rw [hstep, hrec]
      exact joinEdit_take_eq snap buf r0 _ (hgt (rs.get ⟨j, hj⟩) (rs.get_mem _ _)) hr0

/-! ### Claim C2 -/

/-- C2 counterexample: joining row 0 of the buffer `["ab", "  cd"]`, the
recorded cursor anchor range is `((0,2),(1,0))` — its end sits at column 0
of the next row, not at that row's first non-indent column 2 as the claim
states (`cursorRangeSpecWords` renders the claim's words). -/
theorem claim2_counterexample :
    (joinLines [['a', 'b'], [' ', ' ', 'c', 'd']] [⟨⟨0, 0⟩, ⟨0, 0⟩, false⟩]).2 =
      [(⟨0, 2⟩, ⟨1, 0⟩)] ∧
    cursorRangeSpecWords [['a', 'b'], [' ', ' ', 'c', 'd']] 0 = (⟨0, 2⟩, ⟨1, 2⟩) ∧
    ((⟨0, 2⟩, ⟨1, 0⟩) : Point × Point) ≠
      cursorRangeSpecWords [['a', 'b'], [' ', ' ', 'c', 'd']] 0 := by
  refine ⟨by decide, by decide, by decide⟩

/-- C2 (amended): for every row that join-lines joins with its successor,
the recorded anchor range spans from the end of the current row's text to
column 0 (the start) of the next row, with the line length captured from
the pre-edit snapshot before any edit of the transaction is applied. -/
theorem claim2_amended (buf : Buffer) (sels : List Selection) :
    (joinLines buf sels).2 =
      ((visitOrder (normalizeRowRanges (sels.map rowRangeOf))).map
        (fun r => ((⟨r, lineLen buf r⟩ : Point), (⟨r + 1, 0⟩ : Point)))).reverse := by
  simp [joinLines, joinLinesLoop_cursors, cursorRangeForRow]

/-! ### Claim C3 -/

/-- C3: for selections whose derived row ranges have non-decreasing starts
and ends (ascending selections), join-lines visits rows in strictly
descending order; at the moment each row's edit is applied, the buffer
prefix through that row still equals the original snapshot prefix, so no
edit uses a row index shifted by an earlier edit of the transaction; and
the collected anchor-range list, after the final reversal, is in strictly
ascending buffer order. -/
theorem claim3_join_ordering (buf : Buffer) (sels : List Selection)
    (hv : ∀ r ∈ sels.map rowRangeOf, r.1 ≤ r.2)
    (hs : List.Chain' (fun a b : RowRange => a.1 ≤ b.1) (sels.map rowRangeOf))
    (he : List.Chain' (fun a b : RowRange => a.2 ≤ b.2) (sels.map rowRangeOf))
    (hb : ∀ r ∈ sels.map rowRangeOf, r.2 ≤ buf.length) :
    List.Pairwise (fun a b : Nat => b < a)
      (visitOrder (normalizeRowRanges (sels.map rowRangeOf))) ∧
    (∀ i (h : i < (visitOrder (normalizeRowRanges (sels.map rowRangeOf))).length),
      (applyJoinEdits buf ((visitOrder (normalizeRowRanges (sels.map rowRangeOf))).take i)
          buf).take
          ((visitOrder (normalizeRowRanges (sels.map rowRangeOf))).get ⟨i, h⟩ + 1) =
        buf.take ((visitOrder (normalizeRowRanges (sels.map rowRangeOf))).get ⟨i, h⟩ + 1)) ∧
    (joinLines buf sels).1 =
      applyJoinEdits buf (visitOrder (normalizeRowRanges (sels.map rowRangeOf))) buf ∧
    List.Pairwise (fun a b : Point × Point => a.1.row < b.1.row) (joinLines buf sels).2 := by
  obtain ⟨hnv, hnc, hcov⟩ := normalizeRowRanges_spec (sels.map rowRangeOf) hv hs he
  have hpsep := pairwise_of_chain_sep hnv hnc
  have hdesc := visitOrder_pairwise_gt hnv hpsep
  have hrows : ∀ x ∈ visitOrder (normalizeRowRanges (sels.map rowRangeOf)),
      x < buf.length := by
    intro x hx
    obtain ⟨s, hsm, h1, h2⟩ := mem_visitOrder hx
    have hc : coversRow (normalizeRowRanges (sels.map rowRangeOf)) x := ⟨s, hsm, h1, h2⟩
    rw [hcov x] at hc
    obtain ⟨t, ht, _, h4⟩ := hc
    exact lt_of_lt_of_le h4 (hb t ht)
  refine ⟨hdesc, applyJoinEdits_prefix_stable buf _ buf hdesc hrows,
    by simp [joinLines, joinLinesLoop_buffer], ?_⟩
  have hcurs : (joinLines buf sels).2 =
      ((visitOrder (normalizeRowRanges (sels.map rowRangeOf))).map
        (cursorRangeForRow buf)).reverse := by
    simp [joinLines, joinLinesLoop_cursors]
  rw [hcurs, List.pairwise_reverse, List.pairwise_map]
  exact hdesc.imp (fun hab => hab)

/-- C3 witness: the theorem applied to a concrete four-line buffer and two
ascending caret selections on rows 0 and 2. -/
theorem claim3_witness :
    List.Pairwise (fun a b : Nat => b < a)
      (visitOrder (normalizeRowRanges
        ([⟨⟨0, 0⟩, ⟨0, 0⟩, false⟩, ⟨⟨2, 0⟩, ⟨2, 0⟩, false⟩].map rowRangeOf))) ∧
    (∀ i (h : i < (visitOrder (normalizeRowRanges
        ([⟨⟨0, 0⟩, ⟨0, 0⟩, false⟩, ⟨⟨2, 0⟩, ⟨2, 0⟩, false⟩].map rowRangeOf))).length),
      (applyJoinEdits [['a'], ['b'], ['c'], ['d']]
          ((visitOrder (normalizeRowRanges
            ([⟨⟨0, 0⟩, ⟨0, 0⟩, false⟩, ⟨⟨2, 0⟩, ⟨2, 0⟩, false⟩].map rowRangeOf))).take i)
          [['a'], ['b'], ['c'], ['d']]).take
          ((visitOrder (normalizeRowRanges
            ([⟨⟨0, 0⟩, ⟨0, 0⟩, false⟩, ⟨⟨2, 0⟩, ⟨2, 0⟩, false⟩].map rowRangeOf))).get
            ⟨i, h⟩ + 1) =
        [['a'], ['b'], ['c'], ['d']].take
          ((visitOrder (normalizeRowRanges
            ([⟨⟨0, 0⟩, ⟨0, 0⟩, false⟩, ⟨⟨2, 0⟩, ⟨2, 0⟩, false⟩].map rowRangeOf))).get
            ⟨i, h⟩ + 1)) ∧
    (joinLines [['a'], ['b'], ['c'], ['d']]
        [⟨⟨0, 0⟩, ⟨0, 0⟩, false⟩, ⟨⟨2, 0⟩, ⟨2, 0⟩, false⟩]).1 =
      applyJoinEdits [['a'], ['b'], ['c'], ['d']]
        (visitOrder (normalizeRowRanges
          ([⟨⟨0, 0⟩, ⟨0, 0⟩, false⟩, ⟨⟨2, 0⟩, ⟨2, 0⟩, false⟩].map rowRangeOf)))
        [['a'], ['b'], ['c'], ['d']] ∧
    List.Pairwise (fun a b : Point × Point => a.1.row < b.1.row)
      (joinLines [['a'], ['b'], ['c'], ['d']]
        [⟨⟨0, 0⟩, ⟨0, 0⟩, false⟩, ⟨⟨2, 0⟩, ⟨2, 0⟩, false⟩]).2 :=
  claim3_join_ordering [['a'], ['b'], ['c'], ['d']]
    [⟨⟨0, 0⟩, ⟨0, 0⟩, false⟩, ⟨⟨2, 0⟩, ⟨2, 0⟩, false⟩]
    (by decide) (by simp [rowRangeOf, List.chain'_cons]) (by simp [rowRangeOf, List.chain'_cons])
    (by decide)

/-! ### Line selection expander

Embedding of `select_line` (dance.rs lines 115-150).  In the embedding the
display map has no soft wrap: the previous line boundary of a point is the
start of its row and the next line boundary stays on its row, so the
expansion covers whole buffer lines. -/

/-- The idempotency adjustment of `select_line` (dance.rs lines 128-130):
when the selection spans more than one row, ends at column 0 and is
reversed, the end row is decremented before expanding. -/
def adjustedEndRow (s : Selection) : Nat :=
  if s.start.row ≠ s.stop.row ∧ s.stop.column = 0 ∧ s.reversed = true
  then s.stop.row - 1 else s.stop.row

/-- The select-line expander for one selection: snap to whole lines (one
row past the adjusted end row), clamp to the buffer's maximum point, and
put the caret at the start (`reversed = true`). -/
def selectLine (buf : Buffer) (s : Selection) : Selection :=
  ⟨⟨s.start.row, 0⟩, pointMin (maxPoint buf) ⟨adjustedEndRow s + 1, 0⟩, true⟩

/-- The select-line command applied to the whole selection set. -/
def selectLineAll (buf : Buffer) (sels : List Selection) : List Selection :=
  sels.map (selectLine buf)

theorem pointMin_low (buf : Buffer) (e : Nat) (h : e + 1 ≤ buf.length - 1) :
    pointMin (maxPoint buf) ⟨e + 1, 0⟩ = ⟨e + 1, 0⟩ := by
  by_cases hpl : pointLe (maxPoint buf) ⟨e + 1, 0⟩ = true
  · have hstep : pointMin (maxPoint buf) ⟨e + 1, 0⟩ = maxPoint buf := by
      simp [pointMin, hpl]
    rw [hstep]
    simp only [pointLe, maxPoint] at hpl
    simp at hpl
    rcases hpl with hlt | ⟨heq, hz⟩
    · omega
    · have h1 : buf.length - 1 = e + 1 := by omega
      have hz' : lineLen buf (e + 1) = 0 := by rw [← h1]; omega
      show (⟨buf.length - 1, lineLen buf (buf.length - 1)⟩ : Point) = ⟨e + 1, 0⟩
      rw [h1, hz']
  · simp [pointMin, hpl]

theorem pointMin_high (buf : Buffer) (e : Nat) (h : buf.length - 1 ≤ e) :
    pointMin (maxPoint buf) ⟨e + 1, 0⟩ = maxPoint buf := by
  have hlt : buf.length - 1 < e + 1 := by omega
  simp [pointMin, pointLe, maxPoint, hlt]

/-- One application of the expander is a fixed point of the expander, for
any selection inside the buffer. -/
theorem selectLine_idem_one (buf : Buffer) (s : Selection)
    (hrows : s.start.row ≤ s.stop.row) (hend : s.stop.row < buf.length) :
    selectLine buf (selectLine buf s) = selectLine buf s := by
  have hfirst : selectLine buf s =
      ⟨⟨s.start.row, 0⟩, pointMin (maxPoint buf) ⟨adjustedEndRow s + 1, 0⟩, true⟩ := rfl
  have hadj_le : adjustedEndRow s ≤ s.stop.row := by
    unfold adjustedEndRow
    split <;> omega
  have hadj_ge : s.start.row ≤ adjustedEndRow s := by
    unfold adjustedEndRow
    split
    · next hcnd => omega
    · exact hrows
  have key : ∀ sr e : Nat, sr ≤ e → e ≤ buf.length - 1 →
      selectLine buf ⟨⟨sr, 0⟩, pointMin (maxPoint buf) ⟨e + 1, 0⟩, true⟩ =
        ⟨⟨sr, 0⟩, pointMin (maxPoint buf) ⟨e + 1, 0⟩, true⟩ := by
    intro sr e hle hub
    by_cases hA : e + 1 ≤ buf.length - 1
    · rw [pointMin_low buf e hA]
      have hadj : adjustedEndRow ⟨⟨sr, 0⟩, ⟨e + 1, 0⟩, true⟩ = e := by
        unfold adjustedEndRow
        rw [if_pos ⟨show sr ≠ e + 1 by omega, rfl, rfl⟩]
        show e + 1 - 1 = e
        omega
      simp only [selectLine, hadj]
      rw [pointMin_low buf e hA]
    · have heB : e = buf.length - 1 := by omega
      rw [pointMin_high buf e (by omega)]
      by_cases hc : sr ≠ buf.length - 1 ∧ lineLen buf (buf.length - 1) = 0
      · have hsr : sr < buf.length - 1 := by
          rcases Nat.lt_or_ge sr (buf.length - 1) with h | h
          · exact h
          · exact absurd (by omega : sr = buf.length - 1) hc.1
        have hadj : adjustedEndRow ⟨⟨sr, 0⟩, maxPoint buf, true⟩ = buf.length - 1 - 1 := by
          unfold adjustedEndRow
          rw [if_pos ⟨show sr ≠ (maxPoint buf).row from by simp [maxPoint]; omega,
            show (maxPoint buf).column = 0 from by simp [maxPoint, hc.2], rfl⟩]
          simp [maxPoint]
        simp only [selectLine, hadj]
        rw [show buf.length - 1 - 1 + 1 = buf.length - 1 by omega]
        have hmx : maxPoint buf = ⟨buf.length - 1, 0⟩ := by
          simp [maxPoint, hc.2]
        rw [hmx]
        have : pointMin ⟨buf.length - 1, 0⟩ ⟨buf.length - 1, 0⟩ = ⟨buf.length - 1, 0⟩ := by
          simp [pointMin]
        rw [this]
      · have hadj : adjustedEndRow ⟨⟨sr, 0⟩, maxPoint buf, true⟩ = buf.length - 1 := by
          unfold adjustedEndRow
          rw [if_neg]
          · simp [maxPoint]
          · intro hcc
            exact hc ⟨by simpa [maxPoint] using hcc.1, by simpa [maxPoint] using hcc.2.1⟩
        simp only [selectLine, hadj]
        rw [pointMin_high buf (buf.length - 1) (le_refl _)]
  rw [hfirst]
  exact key s.start.row (adjustedEndRow s) hadj_ge (by omega)

/-! ### Claim C5 -/

/-- C5: for every selection set whose members are fully aligned to
whole-line boundaries (both columns 0) with caret-at-start (reversed)
orientation and lie inside the buffer, applying select-current-line(s)
twice in succession yields the same selection set as applying it once. -/
theorem claim5_select_line_idempotent (buf : Buffer) (sels : List Selection)
    (halign : ∀ s ∈ sels, s.start.column = 0 ∧ s.stop.column = 0 ∧ s.reversed = true)
    (hwf : ∀ s ∈ sels, s.start.row ≤ s.stop.row ∧ s.stop.row < buf.length) :
    selectLineAll buf (selectLineAll buf sels) = selectLineAll buf sels := by
  unfold selectLineAll
  rw [List.map_map]
  apply List.map_congr_left
  intro s hs
  exact selectLine_idem_one buf s (hwf s hs).1 (hwf s hs).2

/-- C5 witness: the theorem applied to a two-line buffer with one aligned,
reversed whole-line selection. -/
theorem claim5_witness :
    selectLineAll [['a'], ['b']] (selectLineAll [['a'], ['b']] [⟨⟨0, 0⟩, ⟨1, 0⟩, true⟩]) =
      selectLineAll [['a'], ['b']] [⟨⟨0, 0⟩, ⟨1, 0⟩, true⟩] :=
  claim5_select_line_idempotent [['a'], ['b']] [⟨⟨0, 0⟩, ⟨1, 0⟩, true⟩]
    (by decide) (by decide)

/-! ### Clipboard-aware paste adapter

Embedding of `clipboard_ends_in_newline` and `paste_above`
(dance.rs lines 152-185). -/

/-- A clipboard entry of the host: textual, an image, or a list of
external file paths. -/
inductive ClipboardEntry
  | string (text : Line)
  | image
  | externalPaths
deriving DecidableEq, Repr

/-- The per-entry check of `clipboard_ends_in_newline`: non-text entries
fail; a textual entry must have `'\n'` as its last character. -/
def entryEndsInNewline : ClipboardEntry → Bool
  | .image => false
  | .externalPaths => false
  | .string text => text.getLast? == some '\n'

/-- Embedding of `clipboard_ends_in_newline` (dance.rs lines 152-165): an
absent clipboard item yields false; otherwise the clipboard must hold at
least one entry and every entry must pass the per-entry check. -/
def clipboardEndsInNewline : Option (List ClipboardEntry) → Bool
  | none => false
  | some entries => decide (entries.length > 0) && entries.all entryEndsInNewline

theorem entryEndsInNewline_iff (e : ClipboardEntry) :
    entryEndsInNewline e = true ↔
      ∃ t : Line, e = ClipboardEntry.string t ∧ t.getLast? = some '\n' := by
  cases e with
  | string t => simp [entryEndsInNewline]
  | image => simp [entryEndsInNewline]
  | externalPaths => simp [entryEndsInNewline]

theorem clipboardEndsInNewline_iff (item : Option (List ClipboardEntry)) :
    clipboardEndsInNewline item = true ↔
      ∃ entries, item = some entries ∧ entries ≠ [] ∧
        ∀ e ∈ entries, ∃ t : Line, e = ClipboardEntry.string t ∧ t.getLast? = some '\n' := by
  cases item with
  | none => simp [clipboardEndsInNewline]
  | some entries =>
    simp only [clipboardEndsInNewline, Bool.and_eq_true, decide_eq_true_eq,
      List.all_eq_true, Option.some.injEq]
    constructor
    · rintro ⟨hlen, hall⟩
      exact ⟨entries, rfl, by simpa using List.length_pos.mp hlen,
        fun e he => (entryEndsInNewline_iff e).mp (hall e he)⟩
    · rintro ⟨entries', heq, hne, hall⟩
      subst heq
      exact ⟨List.length_pos.mpr hne, fun e he => (entryEndsInNewline_iff e).mpr (hall e he)⟩

/-! ### Claim C6 -/

/-- C6: `clipboard_ends_in_newline` is true iff the clipboard item is
present, has at least one entry, and every entry is textual with a
line-break last character; an absent item, an empty entry list, and any
mix containing an image or external-path entry all yield false. -/
theorem claim6_clipboard_predicate :
    (∀ item : Option (List ClipboardEntry),
      clipboardEndsInNewline item = true ↔
        ∃ entries, item = some entries ∧ entries ≠ [] ∧
          ∀ e ∈ entries, ∃ t : Line,
            e = ClipboardEntry.string t ∧ t.getLast? = some '\n') ∧
    clipboardEndsInNewline none = false ∧
    clipboardEndsInNewline (some []) = false ∧
    (∀ entries, ClipboardEntry.image ∈ entries →
      clipboardEndsInNewline (some entries) = false) ∧
    (∀ entries, ClipboardEntry.externalPaths ∈ entries →
      clipboardEndsInNewline (some entries) = false) := by
  refine ⟨clipboardEndsInNewline_iff, rfl, rfl, ?_, ?_⟩
  · intro entries hmem
    by_contra hcontra
    have htrue : clipboardEndsInNewline (some entries) = true := by
      cases h : clipboardEndsInNewline (some entries)
      · exact absurd h hcontra
      · rfl
    obtain ⟨entries', heq, _, hall⟩ := (clipboardEndsInNewline_iff _).mp htrue
    obtain ⟨t, ht, _⟩ := hall _ (by cases heq; exact hmem)
    cases ht
  · intro entries hmem
    by_contra hcontra
    have htrue : clipboardEndsInNewline (some entries) = true := by
      cases h : clipboardEndsInNewline (some entries)
      · exact absurd h hcontra
      · rfl
    obtain ⟨entries', heq, _, hall⟩ := (clipboardEndsInNewline_iff _).mp htrue
    obtain ⟨t, ht, _⟩ := hall _ (by cases heq; exact hmem)
    cases ht

/-- C6 witness: concrete evaluations — a two-entry all-text clipboard
ending in line breaks satisfies the predicate; a mixed text/image
clipboard does not. -/
theorem claim6_witness :
    clipboardEndsInNewline
      (some [ClipboardEntry.string ['x', '\n'], ClipboardEntry.string ['\n']]) = true ∧
    clipboardEndsInNewline
      (some [ClipboardEntry.string ['x', '\n'], ClipboardEntry.image]) = false := by
  constructor
  · rw [(claim6_clipboard_predicate.1 _)]
    refine ⟨_, rfl, by decide, ?_⟩
    intro e he
    rcases List.mem_cons.mp he with rfl | he'
    · exact ⟨['x', '\n'], rfl, by decide⟩
    · rcases List.mem_cons.mp he' with rfl | h
      · exact ⟨['\n'], rfl, by decide⟩
      · cases h
  · exact claim6_clipboard_predicate.2.2.2.1 _ (by decide)

/-! ### Paste above -/

/-- The concatenated text of the clipboard's textual entries, as inserted
by the host's in-place paste. -/
def clipboardText : Option (List ClipboardEntry) → Line
  | none => []
  | some entries =>
    (entries.map fun e =>
      match e with
      | ClipboardEntry.string t => t
      | ClipboardEntry.image => []
      | ClipboardEntry.externalPaths => []).flatten

/-- An editor with a single empty selection, for the paste adapter: the
buffer text as one character sequence (rows separated by `'\n'`) and the
caret offset into it. -/
structure PasteState where
  text : Line
  caret : Nat
deriving DecidableEq, Repr

/-- Modelled from the spec: the offset of the start of the buffer line
holding the caret. -/
def lineStartOffset (text : Line) (pos : Nat) : Nat :=
  pos - ((text.take pos).reverse.takeWhile (fun c => c ≠ '\n')).length

/-- Modelled from the spec: the host's `newline_above` inserts a new empty
line above the caret's line and moves the caret onto it. -/
def newlineAbove (st : PasteState) : PasteState :=
  ⟨st.text.take (lineStartOffset st.text st.caret) ++
      '\n' :: st.text.drop (lineStartOffset st.text st.caret),
    lineStartOffset st.text st.caret⟩

/-- Modelled from the spec: the host's plain in-place paste inserts the
clipboard text at the empty selection and leaves the caret after it. -/
def pasteInPlace (clip : Option (List ClipboardEntry)) (st : PasteState) : PasteState :=
  ⟨st.text.take st.caret ++ clipboardText clip ++ st.text.drop st.caret,
    st.caret + (clipboardText clip).length⟩

/-- Modelled from the spec: the host's backspace deletes one character
backward from the caret. -/
def backspaceOne (st : PasteState) : PasteState :=
  if st.caret = 0 then st
  else ⟨st.text.take (st.caret - 1) ++ st.text.drop st.caret, st.caret - 1⟩

/-- Embedding of `paste_above` (dance.rs lines 170-185): when the
clipboard ends in a line break, insert a new line above, paste in place,
then delete one character backward; otherwise only paste in place. -/
def pasteAbove (clip : Option (List ClipboardEntry)) (st : PasteState) : PasteState :=
  let ends := clipboardEndsInNewline clip
  let st1 := if ends then newlineAbove st else st
  let st2 := pasteInPlace clip st1
  if ends then backspaceOne st2 else st2

/-! ### Claim C7 -/

/-- C7: when the clipboard ends in a line break, `paste_above` is exactly
newline-above, then in-place paste, then one backward deletion; when it
does not, `paste_above` is exactly the plain in-place paste; and on buffer
`"abc\ndef\n"` with the caret on row 0 and clipboard entry `"xyz\n"` the
result is `"xyz\nabc\ndef\n"` with no extra blank line. -/
theorem claim7_paste_above (clip : Option (List ClipboardEntry)) (st : PasteState) :
    (clipboardEndsInNewline clip = true →
      pasteAbove clip st = backspaceOne (pasteInPlace clip (newlineAbove st))) ∧
    (clipboardEndsInNewline clip = false →
      pasteAbove clip st = pasteInPlace clip st) ∧
    pasteAbove (some [ClipboardEntry.string "xyz\n".data]) ⟨"abc\ndef\n".data, 0⟩ =
      ⟨"xyz\nabc\ndef\n".data, 3⟩ := by
  refine ⟨?_, ?_, by decide⟩
  · intro h
    simp [pasteAbove, h]
  · intro h
    simp [pasteAbove, h]

/-- C7 witness: the theorem applied at the concrete newline-terminated
clipboard `"xyz\n"`, with its hypothesis discharged by evaluation. -/
theorem claim7_witness :
    clipboardEndsInNewline (some [ClipboardEntry.string "xyz\n".data]) = true ∧
    pasteAbove (some [ClipboardEntry.string "xyz\n".data]) ⟨"abc\ndef\n".data, 0⟩ =
      backspaceOne (pasteInPlace (some [ClipboardEntry.string "xyz\n".data])
        (newlineAbove ⟨"abc\ndef\n".data, 0⟩)) :=
  ⟨by decide,
   (claim7_paste_above (some [ClipboardEntry.string "xyz\n".data])
     ⟨"abc\ndef\n".data, 0⟩).1 (by decide)⟩

/-! ### Command dispatch through weak references -/

/-- The editor state a registered command acts on. -/
structure EditorState where
  buffer : Buffer
  selections : List Selection

/-- A registered command body: it may change the editor state and reports
the buffer edits it performed. -/
abbrev CommandBody := EditorState → EditorState × List (Point × Point × Line)

/-- Embedding of the closure registered by `register_editor_action`
(dance.rs lines 374-394): the weak editor reference is upgraded (`Option`),
and when the editor surface is gone the command body never runs. -/
def dispatchCommand (surface : Option EditorState) (f : CommandBody) :
    Option EditorState × List (Point × Point × Line) :=
  match surface with
  | none => (none, [])
  | some editor =>
    let res := f editor
    (some res.1, res.2)

/-! ### Claim C8 -/

/-- C8: a command firing after its editor surface is gone (the weak
reference upgrade yields `none`) is abandoned: the dispatch returns with
no editor state change, no buffer edits and no selection changes, as a
total function (no panic), whatever the command body is. -/
theorem claim8_dead_surface_abandons (f : CommandBody) :
    dispatchCommand none f = (none, []) := rfl

/-! ### Mode controller

Embedding of the `Dance` mode state: `init` (dance.rs lines 64-107),
`switch_mode` (286-295), `sync` (297-303) and `extend_key_context`
(54-58). -/

/-- Host cursor shapes used by the mode controller. -/
inductive CursorShape
  | bar
  | wideBar
deriving DecidableEq, Repr

/-- The mode controller's state: the stored mode string and the cursor
shape last applied to the editor. -/
structure DanceState where
  dance_mode : String
  shape : CursorShape
deriving DecidableEq, Repr

/-- Embedding of `sync`: mode `"default"` shows a bar cursor, every other
mode a wide bar. -/
def syncShape (mode : String) : CursorShape :=
  if mode = "default" then CursorShape.bar else CursorShape.wideBar

/-- Embedding of the initial mode chosen in `init`: `"action"` for a full
editing surface, else `"default"`. -/
def initialMode (fullSurface : Bool) : String :=
  if fullSurface then "action" else "default"

/-- The controller state right after surface creation: `init` stores the
initial mode and applies `sync`. -/
def initDance (fullSurface : Bool) : DanceState :=
  ⟨initialMode fullSurface, syncShape (initialMode fullSurface)⟩

/-- The commands and events that reach the controller after creation. -/
inductive EditorCommand
  | switchMode (mode : String)
  | selectLineCmd
  | pasteAboveCmd
  | pasteBelowCmd
  | joinLinesCmd
  | moveToBeginningOfLineCmd
  | moveToEndOfLineCmd
  | focusEvent

/-- One controller step: only `switch_mode` writes `dance_mode`; focus
events only re-apply the cursor shape; the editing commands leave the
controller state alone. -/
def stepDance (st : DanceState) : EditorCommand → DanceState
  | .switchMode m => ⟨m, syncShape m⟩
  | .focusEvent => ⟨st.dance_mode, syncShape st.dance_mode⟩
  | .selectLineCmd => st
  | .pasteAboveCmd => st
  | .pasteBelowCmd => st
  | .joinLinesCmd => st
  | .moveToBeginningOfLineCmd => st
  | .moveToEndOfLineCmd => st

/-- The key-context pair exposed by `extend_key_context`. -/
def keyContextEntry (st : DanceState) : String × String := ("dance_mode", st.dance_mode)

/-- The argument of the most recent switch-mode command of a history. -/
def lastSwitchMode : List EditorCommand → Option String
  | [] => none
  | EditorCommand.switchMode m :: rest => some ((lastSwitchMode rest).getD m)
  | _ :: rest => lastSwitchMode rest

theorem foldl_stepDance_mode : ∀ (cmds : List EditorCommand) (st : DanceState),
    (cmds.foldl stepDance st).dance_mode = (lastSwitchMode cmds).getD st.dance_mode := by
  intro cmds
  induction cmds with
  | nil => intro st; rfl
  | cons c rest ih =>
    intro st
    cases c <;> simp [stepDance, lastSwitchMode, ih]

/-! ### Claim C10 -/

/-- C10: at every state reachable after surface creation, the key-context
value exposed under "dance_mode" equals the stored mode string, which is
the initial mode ("action" for a full editing surface, "default"
otherwise) until the first switch-mode command and thereafter the exact
argument of the most recent switch-mode command; no command other than
switch-mode changes it. -/
theorem claim10_mode_invariant (fullSurface : Bool) (cmds : List EditorCommand) :
    keyContextEntry (cmds.foldl stepDance (initDance fullSurface)) =
      ("dance_mode", (lastSwitchMode cmds).getD (initialMode fullSurface)) ∧
    initialMode true = "action" ∧
    initialMode false = "default" ∧
    (∀ st : DanceState, ∀ c : EditorCommand, (∀ m, c ≠ EditorCommand.switchMode m) →
      (stepDance st c).dance_mode = st.dance_mode) := by
  refine ⟨?_, rfl, rfl, ?_⟩
  · rw [keyContextEntry, foldl_stepDance_mode]
    rfl
  · intro st c hc
    cases c with
    | switchMode m => exact absurd rfl (hc m)
    | selectLineCmd => rfl
    | pasteAboveCmd => rfl
    | pasteBelowCmd => rfl
    | joinLinesCmd => rfl
    | moveToBeginningOfLineCmd => rfl
    | moveToEndOfLineCmd => rfl
    | focusEvent => rfl

/-- C10 witness: the theorem applied to a concrete history — an editing
command, a switch to "insert", then a focus event — on a full surface. -/
theorem claim10_witness :
    keyContextEntry ([EditorCommand.joinLinesCmd, EditorCommand.switchMode "insert",
        EditorCommand.focusEvent].foldl stepDance (initDance true)) =
      ("dance_mode", "insert") := by
  have h := (claim10_mode_invariant true [EditorCommand.joinLinesCmd,
    EditorCommand.switchMode "insert", EditorCommand.focusEvent]).1
  rw [h]
  rfl

end DanceSpec
